import Mathlib

/-!
Shallow embedding of the price-history / dividend-forecast core of the
stocks-pwa repository (src/app/portfolio/page.tsx, src/app/dividends/page.tsx,
src/unnamed/part_001), together with proofs that the functions satisfy the
behaviour stated in the specification.

Conventions of the embedding:
* A JavaScript `Date` holding a local-midnight calendar date is the record
  `Date` below (year / 1-based month / day).  Comparison of two such `Date`
  objects (`pay < start` etc.) compares their time values; for calendar
  dates that order is the lexicographic order on (year, month, day), which
  `dateOrd` linearises.
* JavaScript numbers are modelled as rationals `ℚ` (the repository only
  adds, multiplies and divides quote prices and dividend amounts).
  `Number(x.toFixed(2))` is `round2` (round half up at two decimals).
* A JavaScript object used as a string-keyed map is an insertion-ordered
  association list; `lookupA` is property read, `setKey` is property write
  (overwrite in place, append when absent), matching object/Map semantics.
* The two unbounded `while` loops of `forecastMonthly` are translated with
  an explicit fuel argument; the fuel chosen (`loopFuel`) is an upper bound
  on the number of iterations derived from the loop's termination measure,
  and the lemmas `rollForward_eq` / `emitPayments_eq` recover the exact
  one-step unfolding of the source loops, so the functions are the loops.
-/

namespace App

/-- Calendar date as held by a JS `Date` at local midnight: `parseYmd` in
src/app/dividends/page.tsx:34 produces these from `YYYY-MM-DD` strings.
`month` is 1-based (JS `getMonth() + 1`). -/
structure Date where
  year : Int
  month : Nat
  day : Nat
deriving DecidableEq, Repr

/-- Gregorian leap-year rule, as implemented by the JS `Date` object. -/
def isLeap (y : Int) : Bool := (y % 4 == 0 && y % 100 != 0) || y % 400 == 0

/-- Number of days of month `m` (1-based) of year `y`, as used by the JS
`Date` object when normalising an out-of-range day-of-month. -/
def daysInMonth (y : Int) (m : Nat) : Nat :=
  if m = 2 then (if isLeap y then 29 else 28)
  else if m = 4 ∨ m = 6 ∨ m = 9 ∨ m = 11 then 30
  else 31

/-- Target (year, 1-based month) of `x.setMonth(x.getMonth() + n)`: months
count from the 0-based index `month - 1 + n`, with Euclidean division
rolling over/under into neighbouring years exactly as JS does. -/
def monthShift (d : Date) (n : Int) : Int × Nat :=
  (d.year + ((d.month : Int) - 1 + n) / 12, (((d.month : Int) - 1 + n) % 12).toNat + 1)

/-- Effect of `x.setMonth(x.getMonth() + n)` on a calendar date: the month
index moves by `n`; if the day-of-month does not exist in the target month
the date overflows into the following month (JS normalisation; one step of
overflow suffices for the day values arising from parsed dates). -/
def setMonthJS (d : Date) (n : Int) : Date :=
  if d.day ≤ daysInMonth (monthShift d n).1 (monthShift d n).2 then
    ⟨(monthShift d n).1, (monthShift d n).2, d.day⟩
  else if (monthShift d n).2 = 12 then
    ⟨(monthShift d n).1 + 1, 1, d.day - daysInMonth (monthShift d n).1 (monthShift d n).2⟩
  else
    ⟨(monthShift d n).1, (monthShift d n).2 + 1, d.day - daysInMonth (monthShift d n).1 (monthShift d n).2⟩

/-- `x.setDate(0)`: move to the last day of the month preceding `x`'s
month (src/app/dividends/page.tsx:46). -/
def setDateZero (d : Date) : Date :=
  if d.month = 1 then ⟨d.year - 1, 12, daysInMonth (d.year - 1) 12⟩
  else ⟨d.year, d.month - 1, daysInMonth d.year (d.month - 1)⟩

/-- `addMonths` of src/app/dividends/page.tsx:39-49 (the identical copy is
at src/app/portfolio/page.tsx:448-454): `setMonth` the date forward by
`n`, then, if the day-of-month changed (rollover into the next month),
`setDate(0)` to clamp back to the last day of the intended month. -/
def addMonths (d : Date) (n : Int) : Date :=
  let x := setMonthJS d n
  if x.day ≠ d.day then setDateZero x else x

/-- A `Date` record that denotes an actual calendar date, as produced by
parsing a well-formed `YYYY-MM-DD` string. -/
def Date.Valid (d : Date) : Prop :=
  1 ≤ d.month ∧ d.month ≤ 12 ∧ 1 ≤ d.day ∧ d.day ≤ daysInMonth d.year d.month

instance (d : Date) : Decidable d.Valid := by unfold Date.Valid; infer_instance

/-- Zero-based month counter (`year * 12 + month - 1`); `setMonth` moves it
by exactly the requested number of months. -/
def monthIdx (d : Date) : Int := d.year * 12 + (d.month : Int) - 1

/-- Linearisation of the calendar order on dates: for dates with
`month ≤ 12` and `day ≤ 31` it orders exactly like the JS time value of
the date at local midnight. -/
def dateOrd (d : Date) : Int := 10000 * d.year + 100 * (d.month : Int) + (d.day : Int)

/-- JS `<` on two `Date` objects (comparison of time values). -/
def dateLt (a b : Date) : Bool := dateOrd a < dateOrd b

/-- Day-clamped variant of `dateOrd`, used only as a termination measure
for the forecast loops (it is a lower bound of `dateOrd` that every
`addMonths` step strictly increases). -/
def gOrd (d : Date) : Int := 10000 * d.year + 100 * (d.month : Int) + min (d.day : Int) 31

/-- Fuel that over-approximates the number of iterations a forecast loop
bounded by `bound` can still perform from the current date `pay`. -/
def loopFuel (bound pay : Date) : Nat := (dateOrd bound - gOrd pay).toNat + 1

/-- Bucket key `${year}-${month}` (the `YYYY-MM` label string of the
dividends page, which renders the pair injectively). -/
def monthKey (d : Date) : Int × Nat := (d.year, d.month)

/-- `Number(x.toFixed(2))`: round to two decimals, ties towards the larger
value, as specified for `toFixed`. -/
def round2 (q : ℚ) : ℚ := (⌊q * 100 + 1/2⌋ : ℚ) / 100

/-- First-match association-list read: JS property read `obj[k]` /
`map.get(k)` (keys are unique in the objects the app builds). -/
def lookupA {α β : Type} [DecidableEq α] : List (α × β) → α → Option β
  | [], _ => none
  | x :: rest, a => if x.1 = a then some x.2 else lookupA rest a

/-- JS property write `obj[k] = v`: overwrite the existing entry in place,
or append a new entry (insertion order preserved). -/
def setKey {α β : Type} [DecidableEq α] (l : List (α × β)) (k : α) (v : β) : List (α × β) :=
  if l.any (fun p => p.1 = k) then l.map (fun p => if p.1 = k then (k, v) else p)
  else l ++ [(k, v)]

/-- Dividend payment frequency (src/app/dividends/page.tsx:19). -/
inductive Frequency where
  | Monthly | Quarterly | SemiAnnual | Annual
deriving DecidableEq, Repr

/-- `freqToMonths` (src/app/dividends/page.tsx:51-56): the month-step
between consecutive payments. -/
def freqToMonths : Frequency → Nat
  | .Monthly => 1
  | .Quarterly => 3
  | .SemiAnnual => 6
  | .Annual => 12

/-- `freqCountPerYear` (src/app/dividends/page.tsx:58-63): payments per
year. -/
def freqCountPerYear : Frequency → Nat
  | .Monthly => 12
  | .Quarterly => 4
  | .SemiAnnual => 2
  | .Annual => 1

/-- `DividendEvent` (src/app/dividends/page.tsx:8-14); the `id` and `note`
fields play no role in the cash-flow aggregation and are dropped. -/
structure DividendEvent where
  symbol : String
  date : Date
  amount : ℚ
deriving DecidableEq, Repr

/-- `DividendSetting` (src/app/dividends/page.tsx:16-21); `nextPayDate` is
`none` for the empty string (the `!st.nextPayDate` guard). -/
structure DividendSetting where
  symbol : String
  annualPerShare : ℚ
  frequency : Frequency
  nextPayDate : Option Date
deriving DecidableEq, Repr

/-- The month buckets (`Map<string, number>` of the dividends page) as an
insertion-ordered association list keyed by `monthKey`. -/
abbrev Buckets := List ((Int × Nat) × ℚ)

/-- `if (buckets.has(k)) buckets.set(k, (buckets.get(k) ?? 0) + amount)`:
add `amt` to the entry with key `k`; entries with other keys are
untouched, and when `k` is absent the map is the identity, exactly the
`has` guard. -/
def updateBucket (bs : Buckets) (k : Int × Nat) (amt : ℚ) : Buckets :=
  bs.map (fun p => if p.1 = k then (p.1, p.2 + amt) else p)

/-- Result shape of `actualMonthly` / `forecastMonthly`: the `labels`
array (bucket keys in insertion order) and the `values` array. -/
structure MonthlySeries where
  labels : List (Int × Nat)
  values : List ℚ
deriving DecidableEq, Repr

/-- `actualMonthly` (src/app/dividends/page.tsx:179-202): bucket the
recorded dividend events of the last 12 calendar months (zero-filled
buckets first), dropping events strictly before the window start, and
round each bucket to two decimals. -/
def actualMonthly (events : List DividendEvent) (now : Date) : MonthlySeries :=
  let start := addMonths ⟨now.year, now.month, 1⟩ (-11)
  let init : Buckets := (List.range 12).map (fun (i : Nat) => (monthKey (addMonths start (i : Int)), (0 : ℚ)))
  let filled := events.foldl
    (fun bs ev => if dateLt ev.date start then bs else updateBucket bs (monthKey ev.date) ev.amount)
    init
  let labels := filled.map Prod.fst
  ⟨labels, labels.map (fun k => round2 ((lookupA filled k).getD 0))⟩

/-- The `while (pay < start) pay = addMonths(pay, stepMonths)` loop of
`forecastMonthly` (src/app/dividends/page.tsx:231), fuelled. -/
def rollForwardAux (step : Nat) (start : Date) : Nat → Date → Date
  | 0, pay => pay
  | fuel + 1, pay =>
    if dateLt pay start then rollForwardAux step start fuel (addMonths pay (step : Int)) else pay

/-- Roll a stale `nextPayDate` forward by whole frequency steps until it
reaches or passes the window start (src/app/dividends/page.tsx:230-231). -/
def rollForward (step : Nat) (start pay : Date) : Date :=
  rollForwardAux step start (loopFuel start pay) pay

/-- The `while (pay < end)` payment-emission loop of `forecastMonthly`
(src/app/dividends/page.tsx:235-241), fuelled. -/
def emitAux (step : Nat) (endD : Date) (amt : ℚ) : Nat → Date → Buckets → Buckets
  | 0, _, bs => bs
  | fuel + 1, pay, bs =>
    if dateLt pay endD then
      emitAux step endD amt fuel (addMonths pay (step : Int)) (updateBucket bs (monthKey pay) amt)
    else bs

/-- Emit one payment of `amt` into the bucket of each occurrence,
stepping by `step` months until the window end (exclusive). -/
def emitPayments (step : Nat) (endD : Date) (amt : ℚ) (pay : Date) (bs : Buckets) : Buckets :=
  emitAux step endD amt (loopFuel endD pay) pay bs

/-- `forecastMonthly` (src/app/dividends/page.tsx:205-247): for every
symbol with a setting, nonzero current shares and a next-pay date, emit
`shares × annualPerShare / paymentsPerYear` per projected occurrence into
the next-12-months buckets. -/
def forecastMonthly (settings : List (String × DividendSetting))
    (sharesBySymbol : String → Option ℚ) (now : Date) : MonthlySeries :=
  let start : Date := ⟨now.year, now.month, 1⟩
  let init : Buckets := (List.range 12).map (fun (i : Nat) => (monthKey (addMonths start (i : Int)), (0 : ℚ)))
  let endD := addMonths start 12
  let filled := settings.foldl
    (fun bs p =>
      let st := p.2
      let shares := (sharesBySymbol p.1).getD 0
      if shares = 0 then bs
      else
        match st.nextPayDate with
        | none => bs
        | some npd =>
          let perPayment := st.annualPerShare / (freqCountPerYear st.frequency : ℚ)
          let stepMonths := freqToMonths st.frequency
          emitPayments stepMonths endD (shares * perPayment) (rollForward stepMonths start npd) bs)
    init
  let labels := filled.map Prod.fst
  ⟨labels, labels.map (fun k => round2 ((lookupA filled k).getD 0))⟩

/-- Occurrence dates of a payment stream: from `pay`, step by `step`
months while strictly before the window end.  Used by the specification
side of the forecast claims. -/
def occListAux (step : Nat) (endD : Date) : Nat → Date → List Date
  | 0, _ => []
  | fuel + 1, pay =>
    if dateLt pay endD then pay :: occListAux step endD fuel (addMonths pay (step : Int)) else []

/-- All projected occurrence dates strictly before `endD`. -/
def occList (step : Nat) (endD pay : Date) : List Date :=
  occListAux step endD (loopFuel endD pay) pay

/-- Number of projected occurrences falling in the month bucket `k`. -/
def occCount (step : Nat) (endD pay : Date) (k : Int × Nat) : Nat :=
  ((occList step endD pay).filter (fun d => decide (monthKey d = k))).length

/-- Unrounded cash contributed to bucket `k` by the events inside the
window (specification side of `actualMonthly`). -/
def actualSum (events : List DividendEvent) (start : Date) (k : Int × Nat) : ℚ :=
  ((events.filter (fun ev => !(dateLt ev.date start) && decide (monthKey ev.date = k))).map
    DividendEvent.amount).sum

/-- Specification-side restatement of `actualMonthly`: 12 ordered month
buckets, each holding the rounded additive sum of the amounts of the
events of that calendar month that are not strictly before the window
start. -/
def monthlyActualSpec (events : List DividendEvent) (now : Date) : MonthlySeries :=
  let start := addMonths ⟨now.year, now.month, 1⟩ (-11)
  let labels := (List.range 12).map (fun (i : Nat) => monthKey (addMonths start (i : Int)))
  ⟨labels, labels.map (fun k => round2 (actualSum events start k))⟩

/-- Unrounded cash one settings entry contributes to bucket `k`
(specification side of `forecastMonthly`): zero without shares or next-pay
date, otherwise `shares × annualPerShare / paymentsPerYear` per occurrence
of that symbol's rolled-forward payment stream landing in month `k`. -/
def forecastContrib (sharesBySymbol : String → Option ℚ) (start endD : Date)
    (sym : String) (st : DividendSetting) (k : Int × Nat) : ℚ :=
  let shares := (sharesBySymbol sym).getD 0
  if shares = 0 then 0
  else
    match st.nextPayDate with
    | none => 0
    | some npd =>
      shares * (st.annualPerShare / (freqCountPerYear st.frequency : ℚ)) *
        (occCount (freqToMonths st.frequency) endD
          (rollForward (freqToMonths st.frequency) start npd) k : ℚ)

/-- Specification-side restatement of `forecastMonthly`: 12 ordered month
buckets, each holding the rounded sum over the settings entries of their
per-occurrence contribution to that month. -/
def monthlyForecastSpec (settings : List (String × DividendSetting))
    (sharesBySymbol : String → Option ℚ) (now : Date) : MonthlySeries :=
  let start : Date := ⟨now.year, now.month, 1⟩
  let endD := addMonths start 12
  let labels := (List.range 12).map (fun (i : Nat) => monthKey (addMonths start (i : Int)))
  ⟨labels,
    labels.map (fun k =>
      round2 ((settings.map (fun p => forecastContrib sharesBySymbol start endD p.1 p.2 k)).sum))⟩

/-- Value of the bucket labelled `k` in a monthly series. -/
def seriesValue (s : MonthlySeries) (k : Int × Nat) : ℚ :=
  (lookupA (s.labels.zip s.values) k).getD 0

/-- `Quote` (src/app/portfolio/page.tsx:7): both fields optional in the
upstream JSON. -/
structure Quote where
  c : Option ℚ
  dp : Option ℚ
deriving DecidableEq, Repr

/-- `Item` — a holding (src/app/portfolio/page.tsx:6). -/
structure Item where
  id : String
  symbol : String
  name : String
  shares : ℚ
deriving DecidableEq, Repr

/-- `PriceLog` (src/app/portfolio/page.tsx:9): symbol → (date → price),
both levels as insertion-ordered association lists; the date key is the
parsed form of the `YYYY-MM-DD` string produced by `dayKey`. -/
abbrev PriceLog := List (String × List (Date × ℚ))

/-- Chart range presets (src/app/portfolio/page.tsx:8). -/
inductive RangePreset where
  | ALL | D30 | D90 | D180 | D365
deriving DecidableEq, Repr

/-- Client-side portfolio state touched by a quote refresh: the quote
cache object, its timestamp, and the daily price log. -/
structure RefreshState where
  quotes : List (String × Option Quote)
  quotesTs : Int
  priceLog : PriceLog
deriving DecidableEq, Repr

/-- The price a refresh cycle obtained for symbol `s`:
`q[s]?.c` — `none` when the symbol is absent, its entry is the `null`
failure marker, or the quote has no `c` field. -/
def priceOf (q : List (String × Option Quote)) (s : String) : Option ℚ :=
  ((lookupA q s).getD none).bind Quote.c

/-- `logTodayFromQuotes` (src/app/portfolio/page.tsx:154-171): write
today's successfully fetched price of every holding into the price log
under today's date key; symbols whose quote is missing, failed (`null`)
or has no current price are skipped (no sentinel is written). -/
def logTodayFromQuotes (items : List Item) (q : List (String × Option Quote))
    (today : Date) (log : PriceLog) : PriceLog :=
  items.foldl
    (fun lg it =>
      match priceOf q it.symbol with
      | none => lg
      | some p => setKey lg it.symbol (setKey ((lookupA lg it.symbol).getD []) today p))
    log

/-- The 5-minute quote cache window (src/app/portfolio/page.tsx:80),
in milliseconds. -/
def QUOTE_CACHE_MS : Int := 5 * 60 * 1000

/-- `refreshQuotes` (src/app/portfolio/page.tsx:173-196).  The per-symbol
fetch outcome is the oracle `outcome` (`none` = the `fetch` threw or
returned non-2xx, in which case the source stores the explicit `null`
marker).  When the holdings are empty, or the cache is fresh and the
refresh is not forced, nothing happens; otherwise a fresh cache object is
built from every holding's own outcome, the timestamp is set to `now`,
and today's successful prices are logged.  The source's loaded-state
guards (`itemsLoaded`, `priceLog !== null`) are assumed: the model works
on the already-loaded client state. -/
def refreshQuotes (items : List Item) (outcome : String → Option Quote)
    (now : Int) (today : Date) (force : Bool) (st : RefreshState) : RefreshState :=
  if items.length = 0 then st
  else
    let stale := st.quotesTs = 0 ∨ QUOTE_CACHE_MS < now - st.quotesTs
    if ¬force ∧ ¬stale then st
    else
      let next := items.foldl (fun acc it => setKey acc it.symbol (outcome it.symbol)) []
      { quotes := next, quotesTs := now,
        priceLog := logTodayFromQuotes items next today st.priceLog }

/-- `alreadyLoggedToday` (src/app/portfolio/page.tsx:45-51): true iff any
of the given symbols already has a price-log entry under today's key. -/
def alreadyLoggedToday (log : PriceLog) (symbols : List String) (today : Date) : Bool :=
  symbols.any (fun s => (lookupA ((lookupA log s).getD []) today).isSome)

/-- Modelled from the spec: the price-history `reset()` operation
(spec §4.1) clears the entire log unconditionally.  No reset code ships
under src/ — only the specification describes it. -/
def resetLog : PriceLog := []

/-- `recordPrice(symbol, price, asOfDate)` of spec §4.1: the per-symbol
write step performed inside `logTodayFromQuotes`
(src/app/portfolio/page.tsx:166-167): ensure the symbol's day-map exists,
then overwrite/insert the price under the date key. -/
def recordPrice (log : PriceLog) (sym : String) (p : ℚ) (d : Date) : PriceLog :=
  setKey log sym (setKey ((lookupA log sym).getD []) d p)

/-- The price the log holds for symbol `s` on day `d` (`log?.[s]?.[d]`). -/
def logPrice (log : PriceLog) (s : String) (d : Date) : Option ℚ :=
  lookupA ((lookupA log s).getD []) d

/-- Well-formedness of the price log as a JS object: at the outer level
the symbol keys are distinct, and each symbol's day-map has distinct date
keys. -/
def LogWF (log : PriceLog) : Prop :=
  (log.map Prod.fst).Nodup ∧ ∀ e ∈ log, (e.2.map Prod.fst).Nodup

/-- Civil-calendar day count since 1970-01-01 (what `new Date(s).getTime()`
divides into: the standard days-from-civil computation). -/
def daysFromCivil (y : Int) (m : Nat) (d : Nat) : Int :=
  let y2 : Int := if m ≤ 2 then y - 1 else y
  let era : Int := (if 0 ≤ y2 then y2 else y2 - 399) / 400
  let yoe : Int := y2 - era * 400
  let mp : Int := if 2 < m then (m : Int) - 3 else (m : Int) + 9
  let doy : Int := (153 * mp + 2) / 5 + (d : Int) - 1
  let doe : Int := yoe * 365 + yoe / 4 - yoe / 100 + doy
  era * 146097 + doe - 719468

/-- `new Date(k + "T00:00:00").getTime()`: the millisecond timestamp of a
date key at midnight (UTC offset taken as zero). -/
def tsOfDate (d : Date) : Int := daysFromCivil d.year d.month d.day * 86400000

/-- `toSeriesFromLog` (src/app/portfolio/page.tsx:53-58): the symbol's
day-map as (timestamp, price) points sorted ascending by timestamp. -/
def toSeriesFromLog (log : PriceLog) (symbol : String) : List (Int × ℚ) :=
  ((((lookupA log symbol).getD []).map (fun p => (tsOfDate p.1, p.2)))).mergeSort
    (fun a b => a.1 ≤ b.1)

/-- `filterByRange` (src/app/portfolio/page.tsx:60-65): numeric presets
keep points with timestamp at least `now − days·86400000`; `ALL` keeps
everything. -/
def filterByRange (series : List (Int × ℚ)) (range : RangePreset) (now : Int) :
    List (Int × ℚ) :=
  match range with
  | .ALL => series
  | _ =>
    let days : Int :=
      match range with
      | .D30 => 30
      | .D90 => 90
      | .D180 => 180
      | _ => 365
    series.filter (fun p => decide (now - days * 86400000 ≤ p.1))

/-- `seriesBySymbol[sym]` (src/app/portfolio/page.tsx:226-232): the
range-filtered series of one symbol. -/
def symSeries (log : PriceLog) (range : RangePreset) (now : Int) (symbol : String) :
    List (Int × ℚ) :=
  filterByRange (toSeriesFromLog log symbol) range now

/-- `maps[sym].get(t)` of `totalSeries`: the per-symbol timestamp → price
map built with `new Map(entries)` (later duplicates overwrite, hence the
reverse-first lookup). -/
def mapForSym (log : PriceLog) (range : RangePreset) (now : Int) (symbol : String)
    (t : Int) : Option ℚ :=
  lookupA (symSeries log range now symbol).reverse t

/-- The sorted union of the distinct timestamps of all held symbols'
filtered series (the `allTimes` set of src/app/portfolio/page.tsx:236-238). -/
def unionTimes (items : List Item) (log : PriceLog) (range : RangePreset) (now : Int) :
    List Int :=
  (((items.map (fun it => (symSeries log range now it.symbol).map Prod.fst)).flatten).dedup).mergeSort
    (fun a b => a ≤ b)

/-- `totalSeries` (src/app/portfolio/page.tsx:235-254): at each distinct
timestamp, sum `price × shares` over the holdings whose series has a point
at exactly that timestamp; holdings without a point there are skipped. -/
def totalSeries (items : List Item) (log : PriceLog) (range : RangePreset) (now : Int) :
    List (Int × ℚ) :=
  (unionTimes items log range now).map (fun t =>
    (t, items.foldl
      (fun total it =>
        match mapForSym log range now it.symbol t with
        | none => total
        | some p => total + p * it.shares)
      0))

/-- Specification-side restatement of `totalSeries`: over the union of
distinct timestamps, each holding contributes `price × shares` when it has
a sample at the timestamp and zero otherwise (no carry-forward). -/
def totalSeriesSpec (items : List Item) (log : PriceLog) (range : RangePreset) (now : Int) :
    List (Int × ℚ) :=
  (unionTimes items log range now).map (fun t =>
    (t, (items.map (fun it =>
      ((mapForSym log range now it.symbol t).map (· * it.shares)).getD 0)).sum))

/-- `normalizedSeries` (src/app/portfolio/page.tsx:257-267, identical at
src/unnamed/part_001:233-243): every holding whose filtered series has at
least two points and a nonzero first value is rescaled to start at 100;
all other holdings are dropped from the result. -/
def normalizedSeries (items : List Item) (log : PriceLog) (range : RangePreset) (now : Int) :
    List (String × List (Int × ℚ)) :=
  items.filterMap (fun it =>
    let arr := symSeries log range now it.symbol
    if arr.length < 2 then none
    else
      let first := (arr.headD (0, 0)).2
      if first = 0 then none
      else some (it.symbol, arr.map (fun p => (p.1, p.2 / first * 100))))

/-! Calendar lemmas. -/

theorem daysInMonth_pos (y : Int) (m : Nat) : 28 ≤ daysInMonth y m := by
  unfold daysInMonth
  split
  · split <;> omega
  · split <;> omega

theorem daysInMonth_le (y : Int) (m : Nat) : daysInMonth y m ≤ 31 := by
  unfold daysInMonth
  split
  · split <;> omega
  · split <;> omega

theorem monthShift_snd_bounds (d : Date) (n : Int) :
    1 ≤ (monthShift d n).2 ∧ (monthShift d n).2 ≤ 12 := by
  unfold monthShift
  have hnn : (0:Int) ≤ ((d.month : Int) - 1 + n) % 12 := Int.emod_nonneg _ (by norm_num)
  have hlt : ((d.month : Int) - 1 + n) % 12 < 12 := Int.emod_lt_of_pos _ (by norm_num)
  constructor
  · omega
  · simp only
    omega

/-- The composite `setMonth`-then-`setDate(0)` fixup of `addMonths` is the
clamping rule: the target month of `monthShift`, with the day preserved
when the target month has it and clamped to the target month's last day
otherwise. -/
theorem addMonths_eq (d : Date) (n : Int) :
    addMonths d n = ⟨(monthShift d n).1, (monthShift d n).2,
      min d.day (daysInMonth (monthShift d n).1 (monthShift d n).2)⟩ := by
  have h28 := daysInMonth_pos (monthShift d n).1 (monthShift d n).2
  have hm := monthShift_snd_bounds d n
  unfold addMonths setMonthJS
  by_cases h1 : d.day ≤ daysInMonth (monthShift d n).1 (monthShift d n).2
  · simp only [h1, if_true, ne_eq, not_true_eq_false, if_neg, not_false_eq_true, if_false]
    simp [Nat.min_eq_left h1]
  · simp only [h1, if_false]
    by_cases h2 : (monthShift d n).2 = 12
    · simp only [h2, if_true]
      rw [h2] at h28 h1
      have hne : d.day - daysInMonth (monthShift d n).1 12 ≠ d.day := by omega
      rw [if_pos hne]
      unfold setDateZero
      simp only [if_pos rfl]
      have e1 : (monthShift d n).1 + 1 - 1 = (monthShift d n).1 := by ring
      rw [e1]
      have hmin : min d.day (daysInMonth (monthShift d n).1 12) =
          daysInMonth (monthShift d n).1 12 := by omega
      rw [hmin]
      simp
    · simp only [h2, if_false]
      have hne : d.day - daysInMonth (monthShift d n).1 (monthShift d n).2 ≠ d.day := by omega
      rw [if_pos hne]
      unfold setDateZero
      have h3 : (monthShift d n).2 + 1 ≠ 1 := by omega
      simp only [h3, if_false]
      have h4 : (monthShift d n).2 + 1 - 1 = (monthShift d n).2 := by omega
      rw [h4]
      have hmin : min d.day (daysInMonth (monthShift d n).1 (monthShift d n).2) =
          daysInMonth (monthShift d n).1 (monthShift d n).2 := by omega
      rw [hmin]

theorem monthShift_monthIdx (d : Date) (n : Int) :
    (monthShift d n).1 * 12 + ((monthShift d n).2 : Int) - 1 = monthIdx d + n := by
  unfold monthShift monthIdx
  have hm := Int.ediv_add_emod ((d.month : Int) - 1 + n) 12
  have hnn : (0:Int) ≤ ((d.month : Int) - 1 + n) % 12 := Int.emod_nonneg _ (by norm_num)
  push_cast [Int.toNat_of_nonneg hnn]
  omega

theorem monthIdx_addMonths (d : Date) (n : Int) : monthIdx (addMonths d n) = monthIdx d + n := by
  rw [addMonths_eq]
  show (monthShift d n).1 * 12 + ((monthShift d n).2 : Int) - 1 = monthIdx d + n
  exact monthShift_monthIdx d n

theorem addMonths_month_bounds (d : Date) (n : Int) :
    1 ≤ (addMonths d n).month ∧ (addMonths d n).month ≤ 12 := by
  rw [addMonths_eq]
  exact monthShift_snd_bounds d n

theorem addMonths_day_le (d : Date) (n : Int) : (addMonths d n).day ≤ 31 := by
  rw [addMonths_eq]
  have := daysInMonth_le (monthShift d n).1 (monthShift d n).2
  simp only
  omega

/-- Keys of two dates agree exactly when their month counters do, provided
both months are in calendar range. -/
theorem monthKey_eq_iff_monthIdx (a b : Date) (hma : a.month ≤ 12) (hmb : b.month ≤ 12)
    (hma1 : 1 ≤ a.month) (hmb1 : 1 ≤ b.month) :
    monthKey a = monthKey b ↔ monthIdx a = monthIdx b := by
  unfold monthKey monthIdx
  constructor
  · intro h
    have h1 : a.year = b.year := congrArg Prod.fst h
    have h2 : a.month = b.month := congrArg Prod.snd h
    rw [h1, h2]
  · intro h
    have h1 : a.year = b.year ∧ a.month = b.month := by omega
    rw [Prod.mk.injEq]
    exact h1

/-- Calendar order respects the month counter on dates whose fields are in
range (day bound only needed on the left). -/
theorem dateOrd_lt_of_monthIdx_lt (a b : Date) (hma : a.month ≤ 12) (hmb : b.month ≤ 12)
    (hda : a.day ≤ 31) (h : monthIdx a < monthIdx b) : dateOrd a < dateOrd b := by
  unfold monthIdx at h
  unfold dateOrd
  omega

/-! Termination measure for the forecast loops. -/

theorem gOrd_le_dateOrd (d : Date) : gOrd d ≤ dateOrd d := by
  unfold gOrd dateOrd
  have := min_le_right ((d.day : Int)) 31
  have := min_le_left ((d.day : Int)) 31
  omega

/-- Every `addMonths` step of at least one month strictly increases the
clamped order, for every starting date. -/
theorem gOrd_lt_addMonths (d : Date) (s : Nat) (hs : 1 ≤ s) :
    gOrd d < gOrd (addMonths d (s : Int)) := by
  have hmi := monthShift_monthIdx d (s : Int)
  have hb := monthShift_snd_bounds d (s : Int)
  have hdl := daysInMonth_le (monthShift d (s : Int)).1 (monthShift d (s : Int)).2
  rw [addMonths_eq]
  unfold gOrd monthIdx at *
  simp only
  have h1 : min ((d.day : Int)) 31 ≤ 31 := min_le_right _ _
  have h2 : (0:Int) ≤ min ((d.day : Int)) 31 :=
    le_min (Int.ofNat_nonneg _) (by norm_num)
  have h3 : (0:Int) ≤ min ((min d.day (daysInMonth (monthShift d (s : Int)).1 (monthShift d (s : Int)).2) : Nat) : Int) 31 :=
    le_min (Int.ofNat_nonneg _) (by norm_num)
  omega

theorem loopFuel_decrease (bound pay : Date) (s : Nat) (hs : 1 ≤ s)
    (hg : dateLt pay bound = true) :
    (dateOrd bound - gOrd (addMonths pay (s : Int))).toNat < (dateOrd bound - gOrd pay).toNat := by
  have h1 := gOrd_lt_addMonths pay s hs
  have h2 := gOrd_le_dateOrd pay
  have h3 : dateOrd pay < dateOrd bound := by
    unfold dateLt at hg
    exact of_decide_eq_true hg
  omega

/-! One-step unfolding of the fuelled loops: with the fuel chosen in the
wrappers, each fuelled function satisfies exactly the defining equation of
the corresponding source `while` loop. -/

theorem rollForwardAux_congr (step : Nat) (hs : 1 ≤ step) (start : Date) :
    ∀ f1 f2 pay, (dateOrd start - gOrd pay).toNat < f1 → (dateOrd start - gOrd pay).toNat < f2 →
      rollForwardAux step start f1 pay = rollForwardAux step start f2 pay := by
  intro f1
  induction f1 with
  | zero => intro f2 pay h1 h2; omega
  | succ a ih =>
    intro f2 pay h1 h2
    cases f2 with
    | zero => omega
    | succ b =>
      simp only [rollForwardAux]
      cases hg : dateLt pay start with
      | false => simp
      | true =>
        simp only [if_true]
        have hd := loopFuel_decrease start pay step hs hg
        exact ih b (addMonths pay (step : Int)) (by omega) (by omega)

theorem rollForward_eq (step : Nat) (hs : 1 ≤ step) (start pay : Date) :
    rollForward step start pay =
      if dateLt pay start then rollForward step start (addMonths pay (step : Int)) else pay := by
  unfold rollForward loopFuel
  rw [show rollForwardAux step start ((dateOrd start - gOrd pay).toNat + 1) pay =
      if dateLt pay start then
        rollForwardAux step start ((dateOrd start - gOrd pay).toNat) (addMonths pay (step : Int))
      else pay from rfl]
  cases hg : dateLt pay start with
  | false => simp
  | true =>
    simp only [if_true]
    have hd := loopFuel_decrease start pay step hs hg
    exact rollForwardAux_congr step hs start _ _ (addMonths pay (step : Int)) hd
      (Nat.lt_succ_self _)

theorem emitAux_congr (step : Nat) (hs : 1 ≤ step) (endD : Date) (amt : ℚ) :
    ∀ f1 f2 pay bs, (dateOrd endD - gOrd pay).toNat < f1 → (dateOrd endD - gOrd pay).toNat < f2 →
      emitAux step endD amt f1 pay bs = emitAux step endD amt f2 pay bs := by
  intro f1
  induction f1 with
  | zero => intro f2 pay bs h1 h2; omega
  | succ a ih =>
    intro f2 pay bs h1 h2
    cases f2 with
    | zero => omega
    | succ b =>
      simp only [emitAux]
      cases hg : dateLt pay endD with
      | false => simp
      | true =>
        simp only [if_true]
        have hd := loopFuel_decrease endD pay step hs hg
        exact ih b (addMonths pay (step : Int)) _ (by omega) (by omega)

theorem emitPayments_eq (step : Nat) (hs : 1 ≤ step) (endD : Date) (amt : ℚ) (pay : Date)
    (bs : Buckets) :
    emitPayments step endD amt pay bs =
      if dateLt pay endD then
        emitPayments step endD amt (addMonths pay (step : Int)) (updateBucket bs (monthKey pay) amt)
      else bs := by
  unfold emitPayments loopFuel
  rw [show emitAux step endD amt ((dateOrd endD - gOrd pay).toNat + 1) pay bs =
      if dateLt pay endD then
        emitAux step endD amt ((dateOrd endD - gOrd pay).toNat) (addMonths pay (step : Int))
          (updateBucket bs (monthKey pay) amt)
      else bs from rfl]
  cases hg : dateLt pay endD with
  | false => simp
  | true =>
    simp only [if_true]
    have hd := loopFuel_decrease endD pay step hs hg
    exact emitAux_congr step hs endD amt _ _ (addMonths pay (step : Int)) _ hd
      (Nat.lt_succ_self _)

theorem occListAux_congr (step : Nat) (hs : 1 ≤ step) (endD : Date) :
    ∀ f1 f2 pay, (dateOrd endD - gOrd pay).toNat < f1 → (dateOrd endD - gOrd pay).toNat < f2 →
      occListAux step endD f1 pay = occListAux step endD f2 pay := by
  intro f1
  induction f1 with
  | zero => intro f2 pay h1 h2; omega
  | succ a ih =>
    intro f2 pay h1 h2
    cases f2 with
    | zero => omega
    | succ b =>
      simp only [occListAux]
      cases hg : dateLt pay endD with
      | false => simp
      | true =>
        simp only [if_true]
        have hd := loopFuel_decrease endD pay step hs hg
        rw [ih b (addMonths pay (step : Int)) (by omega) (by omega)]

theorem occList_eq (step : Nat) (hs : 1 ≤ step) (endD pay : Date) :
    occList step endD pay =
      if dateLt pay endD then pay :: occList step endD (addMonths pay (step : Int)) else [] := by
  unfold occList loopFuel
  rw [show occListAux step endD ((dateOrd endD - gOrd pay).toNat + 1) pay =
      if dateLt pay endD then
        pay :: occListAux step endD ((dateOrd endD - gOrd pay).toNat) (addMonths pay (step : Int))
      else [] from rfl]
  cases hg : dateLt pay endD with
  | false => simp
  | true =>
    simp only [if_true]
    have hd := loopFuel_decrease endD pay step hs hg
    exact congrArg (List.cons pay)
      (occListAux_congr step hs endD _ _ (addMonths pay (step : Int)) hd (Nat.lt_succ_self _))

/-! Bucket-map lemmas. -/

theorem bucketMap_zero (bs : Buckets) : bs.map (fun p => (p.1, p.2 + 0)) = bs := by
  simp

theorem lookupA_map_self {α β : Type} [DecidableEq α] (l : List α) (g : α → β) (k : α)
    (hk : k ∈ l) : lookupA (l.map (fun a => (a, g a))) k = some (g k) := by
  induction l with
  | nil => cases hk
  | cons a l ih =>
    simp only [List.map_cons, lookupA]
    by_cases ha : a = k
    · rw [if_pos ha, ha]
    · rw [if_neg ha]
      exact ih (by
        rcases List.mem_cons.mp hk with h | h
        · exact absurd h.symm ha
        · exact h)

/-- Folding a skip-or-add-to-bucket step over a list acts entrywise on the
buckets: every entry gains the sum of the amounts of the non-skipped list
elements whose key equals that entry's key. -/
theorem foldl_skip_updateBucket {α : Type} (xs : List α) (c : α → Bool)
    (keyf : α → Int × Nat) (amtf : α → ℚ) (bs : Buckets) :
    xs.foldl (fun b x => if c x then b else updateBucket b (keyf x) (amtf x)) bs
    = bs.map (fun p => (p.1, p.2 +
        ((xs.filter (fun x => !(c x) && decide (keyf x = p.1))).map amtf).sum)) := by
  induction xs generalizing bs with
  | nil => simp
  | cons x xs ih =>
    simp only [List.foldl_cons]
    cases hc : c x with
    | true =>
      rw [if_pos rfl, ih]
      apply List.map_congr_left
      intro p _
      simp [List.filter_cons, hc]
    | false =>
      rw [if_neg (by simp), ih, updateBucket, List.map_map]
      apply List.map_congr_left
      intro p _
      simp only [Function.comp_apply]
      by_cases hk : p.1 = keyf x
      · rw [if_pos hk]
        have hcond : (!c x && decide (keyf x = p.1)) = true := by simp [hc, hk]
        rw [Prod.mk.injEq]
        refine ⟨rfl, ?_⟩
        simp only [List.filter_cons, hcond, if_true, List.map_cons, List.sum_cons]
        ring
      · rw [if_neg hk]
        have : decide (keyf x = p.1) = false := by
          simp only [decide_eq_false_iff_not]
          exact fun h => hk h.symm
        simp [List.filter_cons, hc, this]

/-- Packaging step shared by both monthly aggregations: once the filled
buckets are known to be the zero-initialised buckets with `S k` added to
the entry of each label `k`, the labels/values arrays the page builds from
them are the labels themselves and the rounded `S` values. -/
theorem series_of_filled (labels : List (Int × Nat)) (S : (Int × Nat) → ℚ) :
    (MonthlySeries.mk
      ((List.map (fun p => (p.1, p.2 + S p.1)) (labels.map (fun k => (k, (0:ℚ))))).map Prod.fst)
      (((List.map (fun p => (p.1, p.2 + S p.1)) (labels.map (fun k => (k, (0:ℚ))))).map
          Prod.fst).map
        (fun k => round2 ((lookupA
          (List.map (fun p => (p.1, p.2 + S p.1)) (labels.map (fun k => (k, (0:ℚ))))) k).getD 0))))
    = MonthlySeries.mk labels (labels.map (fun k => round2 (S k))) := by
  have h1 : List.map (fun p => (p.1, p.2 + S p.1)) (labels.map (fun k => (k, (0:ℚ))))
      = labels.map (fun k => (k, 0 + S k)) := by
    rw [List.map_map]
    rfl
  rw [h1]
  have h2 : (labels.map (fun k => (k, (0:ℚ) + S k))).map Prod.fst = labels := by
    rw [List.map_map]
    rw [show (Prod.fst ∘ fun k : Int × Nat => (k, (0:ℚ) + S k)) = id from rfl, List.map_id]
  rw [h2]
  refine congrArg (MonthlySeries.mk labels) ?_
  apply List.map_congr_left
  intro k hk
  rw [lookupA_map_self labels (fun k0 => (0:ℚ) + S k0) k hk]
  simp

/-! Refinement of `actualMonthly`. -/

theorem actualMonthly_eq_spec (events : List DividendEvent) (now : Date) :
    actualMonthly events now = monthlyActualSpec events now := by
  unfold actualMonthly monthlyActualSpec
  simp only
  rw [foldl_skip_updateBucket events (fun ev => dateLt ev.date
        (addMonths ⟨now.year, now.month, 1⟩ (-11)))
      (fun ev => monthKey ev.date) DividendEvent.amount]
  rw [show ((List.range 12).map (fun (i : Nat) =>
        (monthKey (addMonths (addMonths ⟨now.year, now.month, 1⟩ (-11)) (i : Int)), (0 : ℚ))))
      = ((List.range 12).map (fun (i : Nat) =>
        monthKey (addMonths (addMonths ⟨now.year, now.month, 1⟩ (-11)) (i : Int)))).map
          (fun k => (k, (0 : ℚ))) from by rw [List.map_map]; rfl]
  rw [series_of_filled ((List.range 12).map (fun (i : Nat) =>
        monthKey (addMonths (addMonths ⟨now.year, now.month, 1⟩ (-11)) (i : Int))))
      (fun q => ((events.filter (fun x =>
        !(dateLt x.date (addMonths ⟨now.year, now.month, 1⟩ (-11))) &&
          decide (monthKey x.date = q))).map DividendEvent.amount).sum)]
  rfl

/-! Refinement of `forecastMonthly`. -/

theorem freqToMonths_pos (f : Frequency) : 1 ≤ freqToMonths f := by
  cases f <;> simp [freqToMonths]

/-- The payment-emission loop acts entrywise on the buckets: every entry
gains `amt` once per occurrence falling in its month. -/
theorem emitPayments_eq_map (step : Nat) (hs : 1 ≤ step) (endD : Date) (amt : ℚ) :
    ∀ pay bs, emitPayments step endD amt pay bs
      = bs.map (fun p => (p.1, p.2 + amt * (occCount step endD pay p.1 : ℚ))) := by
  suffices H : ∀ n pay bs, (dateOrd endD - gOrd pay).toNat < n →
      emitPayments step endD amt pay bs
        = bs.map (fun p => (p.1, p.2 + amt * (occCount step endD pay p.1 : ℚ))) by
    intro pay bs
    exact H ((dateOrd endD - gOrd pay).toNat + 1) pay bs (Nat.lt_succ_self _)
  intro n
  induction n with
  | zero => intro pay bs h; omega
  | succ a ih =>
    intro pay bs h
    rw [emitPayments_eq step hs endD amt pay bs]
    cases hg : dateLt pay endD with
    | false =>
      simp only [Bool.false_eq_true, if_false]
      have hocc : ∀ k, occCount step endD pay k = 0 := by
        intro k
        unfold occCount
        rw [occList_eq step hs endD pay, hg]
        simp
      have he : ∀ p ∈ bs,
          ((p.1, p.2 + amt * (occCount step endD pay p.1 : ℚ)) : (Int × Nat) × ℚ) = p := by
        intro p _
        rw [hocc p.1]
        simp
      symm
      refine (List.map_congr_left he).trans ?_
      simp
    | true =>
      simp only [if_true]
      have hd := loopFuel_decrease endD pay step hs hg
      rw [ih (addMonths pay (step : Int)) (updateBucket bs (monthKey pay) amt) (by omega)]
      unfold updateBucket
      rw [List.map_map]
      apply List.map_congr_left
      intro p _
      simp only [Function.comp_apply]
      have hocc : occCount step endD pay p.1 =
          occCount step endD (addMonths pay (step : Int)) p.1 +
            (if monthKey pay = p.1 then 1 else 0) := by
        unfold occCount
        rw [occList_eq step hs endD pay, hg]
        simp only [if_true, List.filter_cons]
        by_cases hk : monthKey pay = p.1
        · simp [hk]
        · simp [hk]
      rw [hocc]
      by_cases hk : p.1 = monthKey pay
      · rw [if_pos hk, if_pos hk.symm]
        rw [Prod.mk.injEq]
        refine ⟨rfl, ?_⟩
        push_cast
        ring
      · rw [if_neg hk, if_neg (fun hh => hk hh.symm)]
        rw [Prod.mk.injEq]
        refine ⟨rfl, ?_⟩
        push_cast
        ring

/-- Folding entrywise bucket transformations adds the per-element
contributions pointwise. -/
theorem foldl_entrywise {α : Type} (xs : List α) (h : α → (Int × Nat) → ℚ)
    (F : Buckets → α → Buckets)
    (hF : ∀ bs x, F bs x = bs.map (fun p => (p.1, p.2 + h x p.1))) :
    ∀ bs, xs.foldl F bs = bs.map (fun p => (p.1, p.2 + (xs.map (fun x => h x p.1)).sum)) := by
  induction xs with
  | nil => intro bs; simp
  | cons x xs ih =>
    intro bs
    rw [List.foldl_cons, hF, ih]
    rw [List.map_map]
    apply List.map_congr_left
    intro p _
    simp only [Function.comp_apply, List.map_cons, List.sum_cons]
    rw [Prod.mk.injEq]
    exact ⟨rfl, by ring⟩

theorem forecastMonthly_eq_spec (settings : List (String × DividendSetting))
    (sharesBySymbol : String → Option ℚ) (now : Date) :
    forecastMonthly settings sharesBySymbol now = monthlyForecastSpec settings sharesBySymbol now := by
  unfold forecastMonthly monthlyForecastSpec
  simp only
  rw [foldl_entrywise settings
      (fun p => forecastContrib sharesBySymbol ⟨now.year, now.month, 1⟩
        (addMonths ⟨now.year, now.month, 1⟩ 12) p.1 p.2)
      _
      (by
        intro bs p
        simp only
        unfold forecastContrib
        by_cases hsh : (sharesBySymbol p.1).getD 0 = 0
        · rw [if_pos hsh]
          simp only [hsh, if_pos rfl]
          exact (bucketMap_zero bs).symm
        · rw [if_neg hsh]
          simp only [hsh, if_neg, if_false]
          cases hnp : p.2.nextPayDate with
          | none => exact (bucketMap_zero bs).symm
          | some npd =>
            exact emitPayments_eq_map (freqToMonths p.2.frequency)
              (freqToMonths_pos p.2.frequency)
              (addMonths ⟨now.year, now.month, 1⟩ 12)
              ((sharesBySymbol p.1).getD 0 *
                (p.2.annualPerShare / (freqCountPerYear p.2.frequency : ℚ)))
              (rollForward (freqToMonths p.2.frequency) ⟨now.year, now.month, 1⟩ npd) bs)]
  rw [show ((List.range 12).map (fun (i : Nat) =>
        (monthKey (addMonths ⟨now.year, now.month, 1⟩ (i : Int)), (0 : ℚ))))
      = ((List.range 12).map (fun (i : Nat) =>
        monthKey (addMonths ⟨now.year, now.month, 1⟩ (i : Int)))).map
          (fun k => (k, (0 : ℚ))) from by rw [List.map_map]; rfl]
  rw [series_of_filled ((List.range 12).map (fun (i : Nat) =>
        monthKey (addMonths ⟨now.year, now.month, 1⟩ (i : Int))))
      (fun q => (settings.map (fun p => forecastContrib sharesBySymbol ⟨now.year, now.month, 1⟩
        (addMonths ⟨now.year, now.month, 1⟩ 12) p.1 p.2 q)).sum)]

/-! Claim theorems. -/

/-- C1: for every dividend settings map, shares map and clock,
`forecastMonthly` emits, for each symbol with a setting and nonzero
current shares, one projected payment of
`shares × annualPerShare / paymentsPerYear(frequency)` per occurrence of
the payment stream that starts at `nextPayDate` rolled forward by the
frequency's month-step past the window start and steps by that month-step
until the window end (exclusive) — stated as equality with the
specification-side bucket sums `monthlyForecastSpec`; and in particular
for a symbol with `annualPerShare = 12`, `frequency = Monthly`,
`shares = 10` and `nextPayDate` inside the window, the 12 forecast
buckets sum to exactly 120. -/
theorem claim_C1 (settings : List (String × DividendSetting))
    (sharesBySymbol : String → Option ℚ) (now : Date) :
    forecastMonthly settings sharesBySymbol now
        = monthlyForecastSpec settings sharesBySymbol now ∧
    (forecastMonthly
      [("SPHD", { symbol := "SPHD", annualPerShare := 12, frequency := .Monthly,
                  nextPayDate := some ⟨2024, 6, 20⟩ })]
      (fun s => if s = "SPHD" then some 10 else none) ⟨2024, 6, 15⟩).values.sum = 120 := by
  refine ⟨forecastMonthly_eq_spec settings sharesBySymbol now, ?_⟩
  have hroll : rollForward 1 ⟨2024, 6, 1⟩ ⟨2024, 6, 20⟩ = ⟨2024, 6, 20⟩ := by
    rw [rollForward_eq 1 (le_refl 1), if_neg (by decide)]
  have hocc : occList 1 ⟨2025, 6, 1⟩ ⟨2024, 6, 20⟩ =
      [⟨2024, 6, 20⟩, ⟨2024, 7, 20⟩, ⟨2024, 8, 20⟩, ⟨2024, 9, 20⟩, ⟨2024, 10, 20⟩,
       ⟨2024, 11, 20⟩, ⟨2024, 12, 20⟩, ⟨2025, 1, 20⟩, ⟨2025, 2, 20⟩, ⟨2025, 3, 20⟩,
       ⟨2025, 4, 20⟩, ⟨2025, 5, 20⟩] := by
    simp [occList_eq 1 (le_refl 1), dateLt, dateOrd, addMonths, setMonthJS, setDateZero,
      monthShift, daysInMonth, isLeap]
  rw [forecastMonthly_eq_spec]
  have h12 : addMonths ⟨2024, 6, 1⟩ (12 : Int) = ⟨2025, 6, 1⟩ := by decide
  simp [monthlyForecastSpec, forecastContrib, occCount, List.range_succ, monthKey,
    freqToMonths, freqCountPerYear, hroll, hocc, h12, addMonths, setMonthJS, setDateZero,
    monthShift, daysInMonth, isLeap]
  norm_num [round2]

/-- C2: for every event list and clock, `actualMonthly` equals the
specification-side bucket sums `monthlyActualSpec` (events strictly
before the window start contribute nothing, all others are added to the
bucket of their calendar month); it always returns exactly 12 ordered
buckets, zero-filled when the event list is empty; and two events of the
same symbol in 2024-03 with amounts 50 and 20 make the 2024-03 bucket 70. -/
theorem claim_C2 (events : List DividendEvent) (now : Date) :
    actualMonthly events now = monthlyActualSpec events now ∧
    (actualMonthly events now).labels.length = 12 ∧
    (actualMonthly events now).values.length = 12 ∧
    (actualMonthly [] now).values = List.replicate 12 0 ∧
    seriesValue (actualMonthly
      [⟨"AAPL", ⟨2024, 3, 1⟩, 50⟩, ⟨"AAPL", ⟨2024, 3, 20⟩, 20⟩] ⟨2024, 3, 25⟩) (2024, 3) = 70 := by
  refine ⟨actualMonthly_eq_spec events now, ?_, ?_, ?_, ?_⟩
  · rw [actualMonthly_eq_spec]
    simp [monthlyActualSpec]
  · rw [actualMonthly_eq_spec]
    simp [monthlyActualSpec]
  · rw [actualMonthly_eq_spec]
    have hz : round2 0 = 0 := by norm_num [round2]
    simp [monthlyActualSpec, actualSum, hz, List.range_succ]
  · simp [seriesValue, actualMonthly, addMonths, setMonthJS, setDateZero, monthShift,
      daysInMonth, isLeap, monthKey, dateLt, dateOrd, updateBucket, lookupA, List.range_succ]
    norm_num [round2]

theorem zip_map_self {α β : Type} (l : List α) (g : α → β) :
    l.zip (l.map g) = l.map (fun a => (a, g a)) := by
  induction l with
  | nil => simp
  | cons a l ih => simp [ih]

theorem seriesValue_spec (labels : List (Int × Nat)) (f : (Int × Nat) → ℚ) (k : Int × Nat)
    (hk : k ∈ labels) : seriesValue ⟨labels, labels.map f⟩ k = f k := by
  unfold seriesValue
  show (lookupA (labels.zip (labels.map f)) k).getD 0 = f k
  rw [zip_map_self, lookupA_map_self labels f k hk]
  rfl

theorem monthIdx_start (now : Date) :
    monthIdx (addMonths ⟨now.year, now.month, 1⟩ (-11)) = monthIdx now - 11 := by
  rw [monthIdx_addMonths]
  show monthIdx now + (-11) = monthIdx now - 11
  ring

theorem monthKey_now_mem_labels (now : Date) (hnow : now.Valid) :
    monthKey now ∈ (List.range 12).map (fun (i : Nat) =>
      monthKey (addMonths (addMonths ⟨now.year, now.month, 1⟩ (-11)) (i : Int))) := by
  refine List.mem_map.mpr ⟨11, by simp, ?_⟩
  refine (monthKey_eq_iff_monthIdx _ _
    (addMonths_month_bounds _ _).2 hnow.2.1 (addMonths_month_bounds _ _).1 hnow.1).mpr ?_
  rw [monthIdx_addMonths, monthIdx_start]
  ring

/-- C10 (implicit): an event dated in a calendar month strictly after the
current month contributes nothing to any `actualMonthly` bucket nor to
the 12-month total (no bucket exists for it), while an event in the
current calendar month — even dated later in the month than the clock —
is counted in the current month's bucket. -/
theorem claim_C10 (events : List DividendEvent) (ev : DividendEvent) (now : Date)
    (hnow : now.Valid) (hev : ev.date.Valid) :
    (monthIdx now < monthIdx ev.date →
      actualMonthly (ev :: events) now = actualMonthly events now ∧
      ((actualMonthly (ev :: events) now).values.sum
        = (actualMonthly events now).values.sum)) ∧
    (monthKey ev.date = monthKey now →
      seriesValue (actualMonthly (ev :: events) now) (monthKey now)
        = round2 (ev.amount +
            actualSum events (addMonths ⟨now.year, now.month, 1⟩ (-11)) (monthKey now))) := by
  constructor
  · intro hlater
    have heq : actualMonthly (ev :: events) now = actualMonthly events now := by
      rw [actualMonthly_eq_spec, actualMonthly_eq_spec]
      unfold monthlyActualSpec
      simp only
      refine congrArg (MonthlySeries.mk _) ?_
      apply List.map_congr_left
      intro k hk
      rcases List.mem_map.mp hk with ⟨i, hi, hki⟩
      have hi12 : i < 12 := List.mem_range.mp hi
      have hkmi : monthIdx (addMonths (addMonths ⟨now.year, now.month, 1⟩ (-11)) (i : Int))
          = monthIdx now - 11 + i := by
        rw [monthIdx_addMonths, monthIdx_start]
      have hne : monthKey ev.date ≠ k := by
        intro hcon
        rw [← hki] at hcon
        have := (monthKey_eq_iff_monthIdx _ _ hev.2.1 (addMonths_month_bounds _ _).2
          hev.1 (addMonths_month_bounds _ _).1).mp hcon
        omega
      unfold actualSum
      have hcond : (!(dateLt ev.date (addMonths ⟨now.year, now.month, 1⟩ (-11))) &&
          decide (monthKey ev.date = k)) = false := by
        simp [hne]
      simp [List.filter_cons, hcond]
    exact ⟨heq, by rw [heq]⟩
  · intro hkey
    have hmi : monthIdx ev.date = monthIdx now :=
      (monthKey_eq_iff_monthIdx _ _ hev.2.1 hnow.2.1 hev.1 hnow.1).mp hkey
    rw [actualMonthly_eq_spec]
    unfold monthlyActualSpec
    simp only
    rw [seriesValue_spec _ _ _ (monthKey_now_mem_labels now hnow)]
    have hstart : dateOrd (addMonths ⟨now.year, now.month, 1⟩ (-11)) < dateOrd ev.date := by
      apply dateOrd_lt_of_monthIdx_lt _ _ (addMonths_month_bounds _ _).2 hev.2.1
        (addMonths_day_le _ _)
      rw [monthIdx_start]
      omega
    have hlt : dateLt ev.date (addMonths ⟨now.year, now.month, 1⟩ (-11)) = false := by
      unfold dateLt
      simp only [decide_eq_false_iff_not]
      omega
    unfold actualSum
    simp [List.filter_cons, hlt, hkey]

/-- Witness for C10 at concrete inputs: a 2024-05 event is dropped from
the 2024-03 window entirely, and a 2024-03-30 event is counted by the
clock 2024-03-25. -/
theorem claim_C10_witness :
    actualMonthly [⟨"AAPL", ⟨2024, 5, 1⟩, 10⟩] ⟨2024, 3, 25⟩ = actualMonthly [] ⟨2024, 3, 25⟩ ∧
    seriesValue (actualMonthly [⟨"AAPL", ⟨2024, 3, 30⟩, 10⟩] ⟨2024, 3, 25⟩)
        (monthKey ⟨2024, 3, 25⟩)
      = round2 ((10 : ℚ) +
          actualSum [] (addMonths ⟨2024, 3, 1⟩ (-11)) (monthKey ⟨2024, 3, 25⟩)) :=
  ⟨((claim_C10 [] ⟨"AAPL", ⟨2024, 5, 1⟩, 10⟩ ⟨2024, 3, 25⟩ (by decide) (by decide)).1
      (by decide)).1,
   (claim_C10 [] ⟨"AAPL", ⟨2024, 3, 30⟩, 10⟩ ⟨2024, 3, 25⟩ (by decide) (by decide)).2
      (by decide)⟩

/-- C5: for every date and month count, `addMonths` lands in exactly the
shifted target month (never overflowing into the following month), with
the day-of-month preserved when the target month has it and clamped to
the target month's last day otherwise; in particular
2024-01-31 + 1 month = 2024-02-29. -/
theorem claim_C5 (d : Date) (n : Int) :
    ((addMonths d n).year, (addMonths d n).month) = monthShift d n ∧
    (addMonths d n).day = min d.day (daysInMonth (addMonths d n).year (addMonths d n).month) ∧
    addMonths ⟨2024, 1, 31⟩ 1 = ⟨2024, 2, 29⟩ := by
  have hF := addMonths_eq d n
  refine ⟨?_, ?_, by decide⟩
  · rw [hF]
  · rw [hF]

/-- C4: advancing a valid date by a frequency step N ∈ {1,3,6,12} months
and stepping back by N months returns the date itself, except in the
clamped day-31-into-short-month cases, where it returns the date with its
day replaced by the last day of the short target month; the explicit
clamp case 2024-01-31 + 1 month = 2024-02-29 holds. -/
theorem claim_C4 (d : Date) (hd : d.Valid) (n : Nat)
    (hn : n = 1 ∨ n = 3 ∨ n = 6 ∨ n = 12) :
    (addMonths (addMonths d (n : Int)) (-(n : Int)) = d ∨
      (daysInMonth (addMonths d (n : Int)).year (addMonths d (n : Int)).month < d.day ∧
        addMonths (addMonths d (n : Int)) (-(n : Int)) =
          ⟨d.year, d.month, daysInMonth (addMonths d (n : Int)).year (addMonths d (n : Int)).month⟩)) ∧
    addMonths ⟨2024, 1, 31⟩ 1 = ⟨2024, 2, 29⟩ := by
  obtain ⟨y, m, dy⟩ := d
  have hd' : 1 ≤ m ∧ m ≤ 12 ∧ 1 ≤ dy ∧ dy ≤ daysInMonth y m := hd
  refine ⟨?_, by decide⟩
  have hF := addMonths_eq ⟨y, m, dy⟩ (n : Int)
  have hB := addMonths_eq (addMonths ⟨y, m, dy⟩ (n : Int)) (-(n : Int))
  have hms := monthShift_monthIdx (addMonths ⟨y, m, dy⟩ (n : Int)) (-(n : Int))
  have hmb := monthShift_snd_bounds (addMonths ⟨y, m, dy⟩ (n : Int)) (-(n : Int))
  rw [monthIdx_addMonths] at hms
  have hyy : (monthShift (addMonths ⟨y, m, dy⟩ (n : Int)) (-(n : Int))).1 = y ∧
      (monthShift (addMonths ⟨y, m, dy⟩ (n : Int)) (-(n : Int))).2 = m := by
    unfold monthIdx at hms
    simp only at hms
    constructor <;> omega
  rw [hyy.1, hyy.2] at hB
  have hFday : (addMonths ⟨y, m, dy⟩ (n : Int)).day =
      min dy (daysInMonth (monthShift ⟨y, m, dy⟩ (n : Int)).1 (monthShift ⟨y, m, dy⟩ (n : Int)).2) := by
    rw [hF]
  have hFy : (addMonths ⟨y, m, dy⟩ (n : Int)).year = (monthShift ⟨y, m, dy⟩ (n : Int)).1 := by
    rw [hF]
  have hFm : (addMonths ⟨y, m, dy⟩ (n : Int)).month = (monthShift ⟨y, m, dy⟩ (n : Int)).2 := by
    rw [hF]
  by_cases hcl : dy ≤ daysInMonth (monthShift ⟨y, m, dy⟩ (n : Int)).1 (monthShift ⟨y, m, dy⟩ (n : Int)).2
  · left
    rw [hB, hFday]
    have h1 : min dy (daysInMonth (monthShift ⟨y, m, dy⟩ (n : Int)).1
        (monthShift ⟨y, m, dy⟩ (n : Int)).2) = dy := Nat.min_eq_left hcl
    rw [h1]
    have h2 : min dy (daysInMonth y m) = dy := Nat.min_eq_left hd'.2.2.2
    rw [h2]
  · right
    constructor
    · rw [hFy, hFm]
      show daysInMonth (monthShift ⟨y, m, dy⟩ (n : Int)).1 (monthShift ⟨y, m, dy⟩ (n : Int)).2 < dy
      omega
    · rw [hB, hFday, hFy, hFm]
      have h1 : min dy (daysInMonth (monthShift ⟨y, m, dy⟩ (n : Int)).1
          (monthShift ⟨y, m, dy⟩ (n : Int)).2)
          = daysInMonth (monthShift ⟨y, m, dy⟩ (n : Int)).1 (monthShift ⟨y, m, dy⟩ (n : Int)).2 :=
        Nat.min_eq_right (by omega)
      rw [h1]
      have h2 : min (daysInMonth (monthShift ⟨y, m, dy⟩ (n : Int)).1
          (monthShift ⟨y, m, dy⟩ (n : Int)).2) (daysInMonth y m)
          = daysInMonth (monthShift ⟨y, m, dy⟩ (n : Int)).1 (monthShift ⟨y, m, dy⟩ (n : Int)).2 :=
        Nat.min_eq_left (by omega)
      rw [h2]

/-- Witness for C4 at 2024-01-31 with step 1 (the clamped case). -/
theorem claim_C4_witness :
    (addMonths (addMonths ⟨2024, 1, 31⟩ ((1 : Nat) : Int)) (-((1 : Nat) : Int)) = (⟨2024, 1, 31⟩ : Date) ∨
      (daysInMonth (addMonths (⟨2024, 1, 31⟩ : Date) ((1 : Nat) : Int)).year
          (addMonths (⟨2024, 1, 31⟩ : Date) ((1 : Nat) : Int)).month < (31 : Nat) ∧
        addMonths (addMonths ⟨2024, 1, 31⟩ ((1 : Nat) : Int)) (-((1 : Nat) : Int)) =
          ⟨2024, 1, daysInMonth (addMonths (⟨2024, 1, 31⟩ : Date) ((1 : Nat) : Int)).year
            (addMonths (⟨2024, 1, 31⟩ : Date) ((1 : Nat) : Int)).month⟩)) ∧
    addMonths ⟨2024, 1, 31⟩ 1 = ⟨2024, 2, 29⟩ :=
  claim_C4 ⟨2024, 1, 31⟩ (by decide) 1 (Or.inl rfl)

/-! Association-list lemmas for the quote cache and the price log. -/

theorem lookupA_append {α β : Type} [DecidableEq α] (l1 l2 : List (α × β)) (a : α) :
    lookupA (l1 ++ l2) a =
      match lookupA l1 a with
      | some v => some v
      | none => lookupA l2 a := by
  induction l1 with
  | nil => simp [lookupA]
  | cons x l1 ih =>
    simp only [List.cons_append, lookupA]
    by_cases hx : x.1 = a
    · simp [hx]
    · simp [hx, ih]

theorem lookupA_eq_none {α β : Type} [DecidableEq α] (l : List (α × β)) (a : α)
    (h : (l.any fun p => decide (p.1 = a)) = false) : lookupA l a = none := by
  induction l with
  | nil => rfl
  | cons x l ih =>
    simp only [List.any_cons, Bool.or_eq_false_iff, decide_eq_false_iff_not] at h
    simp only [lookupA]
    rw [if_neg h.1]
    exact ih h.2

theorem lookupA_map_replace_self {α β : Type} [DecidableEq α] (l : List (α × β)) (k : α) (v : β)
    (h : (l.any fun p => decide (p.1 = k)) = true) :
    lookupA (l.map (fun p => if p.1 = k then (k, v) else p)) k = some v := by
  induction l with
  | nil => simp at h
  | cons x l ih =>
    simp only [List.map_cons, lookupA]
    by_cases hxk : x.1 = k
    · rw [if_pos hxk]
      simp
    · rw [if_neg hxk]
      simp only [List.any_cons, Bool.or_eq_true, decide_eq_true_eq] at h
      rcases h with h | h
      · exact absurd h hxk
      · rw [if_neg hxk]
        exact ih (by simpa using h)

theorem lookupA_map_replace_other {α β : Type} [DecidableEq α] (l : List (α × β)) (k : α)
    (v : β) (a : α) (ha : a ≠ k) :
    lookupA (l.map (fun p => if p.1 = k then (k, v) else p)) a = lookupA l a := by
  induction l with
  | nil => rfl
  | cons x l ih =>
    simp only [List.map_cons, lookupA]
    by_cases hxk : x.1 = k
    · rw [if_pos hxk]
      have h1 : ¬ ((k, v) : α × β).1 = a := fun h => ha h.symm
      rw [if_neg h1, if_neg (by rw [hxk]; exact fun h => ha h.symm)]
      exact ih
    · rw [if_neg hxk]
      by_cases hxa : x.1 = a
      · rw [if_pos hxa, if_pos hxa]
      · rw [if_neg hxa, if_neg hxa]
        exact ih

theorem lookupA_setKey_self {α β : Type} [DecidableEq α] (l : List (α × β)) (k : α) (v : β) :
    lookupA (setKey l k v) k = some v := by
  unfold setKey
  by_cases hany : (l.any fun p => decide (p.1 = k)) = true
  · rw [if_pos hany]
    exact lookupA_map_replace_self l k v hany
  · rw [if_neg hany, lookupA_append]
    rw [lookupA_eq_none l k (by rwa [Bool.not_eq_true] at hany)]
    simp [lookupA]

theorem lookupA_setKey_other {α β : Type} [DecidableEq α] (l : List (α × β)) (k : α) (v : β)
    (a : α) (ha : a ≠ k) : lookupA (setKey l k v) a = lookupA l a := by
  unfold setKey
  by_cases hany : (l.any fun p => decide (p.1 = k)) = true
  · rw [if_pos hany]
    exact lookupA_map_replace_other l k v a ha
  · rw [if_neg hany, lookupA_append]
    cases hl : lookupA l a with
    | some w => rfl
    | none =>
      simp only [lookupA]
      exact if_neg (fun h => ha h.symm)

/-! Quote-cache and price-log write lemmas. -/

/-- The cache object a refresh builds holds, for every held symbol,
exactly that symbol's own fetch outcome (so one symbol's failure cannot
touch another symbol's entry), and nothing for other symbols. -/
theorem lookupA_buildQuotes (items : List Item) (outcome : String → Option Quote) :
    ∀ (acc0 : List (String × Option Quote)) (s : String),
      lookupA (items.foldl (fun acc it => setKey acc it.symbol (outcome it.symbol)) acc0) s
        = if s ∈ items.map Item.symbol then some (outcome s) else lookupA acc0 s := by
  induction items with
  | nil => intro acc0 s; simp
  | cons it items ih =>
    intro acc0 s
    simp only [List.foldl_cons, List.map_cons, List.mem_cons]
    rw [ih]
    by_cases hs : s ∈ items.map Item.symbol
    · rw [if_pos hs, if_pos (Or.inr hs)]
    · rw [if_neg hs]
      by_cases hsit : s = it.symbol
      · rw [if_pos (Or.inl hsit), hsit, lookupA_setKey_self]
      · rw [if_neg (by tauto), lookupA_setKey_other _ _ _ _ hsit]

theorem logPrice_recordPrice_self (log : PriceLog) (sym : String) (p : ℚ) (d : Date) :
    logPrice (recordPrice log sym p d) sym d = some p := by
  unfold logPrice recordPrice
  rw [lookupA_setKey_self]
  simp only [Option.getD_some]
  rw [lookupA_setKey_self]

theorem logPrice_recordPrice_other (log : PriceLog) (sym : String) (p : ℚ) (d : Date)
    (s : String) (hs : s ≠ sym) (d' : Date) :
    logPrice (recordPrice log sym p d) s d' = logPrice log s d' := by
  unfold logPrice recordPrice
  rw [lookupA_setKey_other _ _ _ _ hs]

/-- A symbol whose refresh cycle produced a price is present in the log
under today's key after `logTodayFromQuotes` (whether it was written by
its own holding or was already there with that value). -/
theorem logToday_write (q : List (String × Option Quote)) (today : Date) (s : String) (pv : ℚ)
    (hq : priceOf q s = some pv) :
    ∀ (items : List Item) (log : PriceLog),
      (logPrice log s today = some pv ∨ ∃ it ∈ items, it.symbol = s) →
      logPrice (logTodayFromQuotes items q today log) s today = some pv := by
  intro items
  induction items with
  | nil =>
    intro log h
    rcases h with h | h
    · simpa [logTodayFromQuotes] using h
    · simp at h
  | cons it items ih =>
    intro log h
    unfold logTodayFromQuotes
    simp only [List.foldl_cons]
    cases hp : priceOf q it.symbol with
    | none =>
      refine (?_ : logPrice (logTodayFromQuotes items q today log) s today = some pv)
      apply ih log
      rcases h with h | ⟨it0, hit0, hsym⟩
      · exact Or.inl h
      · rcases List.mem_cons.mp hit0 with h0 | h0
        · exfalso
          rw [h0] at hsym
          rw [hsym, hq] at hp
          cases hp
        · exact Or.inr ⟨it0, h0, hsym⟩
    | some pw =>
      refine (?_ : logPrice
        (logTodayFromQuotes items q today (recordPrice log it.symbol pw today)) s today = some pv)
      apply ih
      by_cases hsit : it.symbol = s
      · left
        rw [hsit] at hp
        rw [hq] at hp
        have hpw : pw = pv := by injection hp with h; exact h.symm
        rw [← hsit, hpw, logPrice_recordPrice_self]
      · rcases h with h | ⟨it0, hit0, hsym⟩
        · left
          rw [logPrice_recordPrice_other _ _ _ _ s (fun hh => hsit hh.symm)]
          exact h
        · rcases List.mem_cons.mp hit0 with h0 | h0
          · exact absurd (h0 ▸ hsym) hsit
          · exact Or.inr ⟨it0, h0, hsym⟩

/-- A symbol whose refresh cycle produced no price is simply omitted from
today's writes: its log entry for today is whatever it was before. -/
theorem logToday_skip (q : List (String × Option Quote)) (today : Date) (s : String)
    (hq : priceOf q s = none) :
    ∀ (items : List Item) (log : PriceLog),
      logPrice (logTodayFromQuotes items q today log) s today = logPrice log s today := by
  intro items
  induction items with
  | nil => intro log; simp [logTodayFromQuotes]
  | cons it items ih =>
    intro log
    unfold logTodayFromQuotes
    simp only [List.foldl_cons]
    cases hp : priceOf q it.symbol with
    | none =>
      exact ih log
    | some pw =>
      have hsit : s ≠ it.symbol := by
        intro hh
        rw [hh, hp] at hq
        cases hq
      exact (ih (recordPrice log it.symbol pw today)).trans
        (logPrice_recordPrice_other _ _ _ _ s hsit today)

/-- With nonempty holdings and either a forced call or a stale cache, a
refresh runs: it rebuilds the quote cache from the per-symbol outcomes,
stamps the cache time `now` once, and logs today's successful prices. -/
theorem refreshQuotes_run (items : List Item) (outcome : String → Option Quote) (now : Int)
    (today : Date) (force : Bool) (st : RefreshState) (hne : items ≠ [])
    (hrun : force = true ∨ st.quotesTs = 0 ∨ QUOTE_CACHE_MS < now - st.quotesTs) :
    refreshQuotes items outcome now today force st =
      { quotes := items.foldl (fun acc it => setKey acc it.symbol (outcome it.symbol)) [],
        quotesTs := now,
        priceLog := logTodayFromQuotes items
          (items.foldl (fun acc it => setKey acc it.symbol (outcome it.symbol)) []) today
          st.priceLog } := by
  unfold refreshQuotes
  rw [if_neg (by simpa [List.length_eq_zero] using hne)]
  rw [if_neg (by
    intro hcon
    rcases hrun with h | h
    · exact hcon.1 (by simp [h])
    · exact hcon.2 h)]

/-- C3: during an executed refresh, every holding's cache entry is exactly
its own fetch outcome (failures become the explicit `null` marker rather
than being dropped or left stale, and cannot affect other symbols); the
cache timestamp becomes `now`; a holding whose fetch produced a current
price has it logged under today's key; and a symbol whose fetch produced
no price is omitted from today's writes, its log entry left untouched. -/
theorem claim_C3 (items : List Item) (outcome : String → Option Quote) (now : Int)
    (today : Date) (force : Bool) (st : RefreshState) (hne : items ≠ [])
    (hrun : force = true ∨ st.quotesTs = 0 ∨ QUOTE_CACHE_MS < now - st.quotesTs)
    (it : Item) (hit : it ∈ items) (sF : String)
    (hF : (outcome sF).bind Quote.c = none) :
    lookupA (refreshQuotes items outcome now today force st).quotes it.symbol
        = some (outcome it.symbol) ∧
    (refreshQuotes items outcome now today force st).quotesTs = now ∧
    (∀ pv : ℚ, (outcome it.symbol).bind Quote.c = some pv →
      logPrice (refreshQuotes items outcome now today force st).priceLog it.symbol today
        = some pv) ∧
    logPrice (refreshQuotes items outcome now today force st).priceLog sF today
      = logPrice st.priceLog sF today := by
  rw [refreshQuotes_run items outcome now today force st hne hrun]
  have hmem : it.symbol ∈ items.map Item.symbol := List.mem_map_of_mem _ hit
  refine ⟨?_, rfl, ?_, ?_⟩
  · rw [lookupA_buildQuotes items outcome [] it.symbol, if_pos hmem]
  · intro pv hpv
    apply logToday_write _ today it.symbol pv ?_ items st.priceLog (Or.inr ⟨it, hit, rfl⟩)
    unfold priceOf
    rw [lookupA_buildQuotes items outcome [] it.symbol, if_pos hmem]
    simpa using hpv
  · apply logToday_skip
    unfold priceOf
    rw [lookupA_buildQuotes items outcome [] sF]
    by_cases hsF : sF ∈ items.map Item.symbol
    · rw [if_pos hsF]
      simpa using hF
    · rw [if_neg hsF]
      rfl

/-- Witness for C3: two holdings, the AAPL fetch succeeds at 150, the
MSFT fetch fails; after a forced refresh from an empty state the cache
holds AAPL's quote and MSFT's explicit failure marker, the timestamp is
99, AAPL's price is logged for the day and MSFT stays absent. -/
theorem claim_C3_witness :
    lookupA (refreshQuotes
        [⟨"1", "AAPL", "Apple", 10⟩, ⟨"2", "MSFT", "Microsoft", 5⟩]
        (fun s => if s = "AAPL" then some ⟨some 150, some 1⟩ else none)
        99 ⟨2024, 1, 2⟩ true ⟨[], 0, []⟩).quotes "AAPL"
      = some (some ⟨some 150, some 1⟩) ∧
    (refreshQuotes
        [⟨"1", "AAPL", "Apple", 10⟩, ⟨"2", "MSFT", "Microsoft", 5⟩]
        (fun s => if s = "AAPL" then some ⟨some 150, some 1⟩ else none)
        99 ⟨2024, 1, 2⟩ true ⟨[], 0, []⟩).quotesTs = 99 ∧
    logPrice (refreshQuotes
        [⟨"1", "AAPL", "Apple", 10⟩, ⟨"2", "MSFT", "Microsoft", 5⟩]
        (fun s => if s = "AAPL" then some ⟨some 150, some 1⟩ else none)
        99 ⟨2024, 1, 2⟩ true ⟨[], 0, []⟩).priceLog "AAPL" ⟨2024, 1, 2⟩ = some 150 ∧
    logPrice (refreshQuotes
        [⟨"1", "AAPL", "Apple", 10⟩, ⟨"2", "MSFT", "Microsoft", 5⟩]
        (fun s => if s = "AAPL" then some ⟨some 150, some 1⟩ else none)
        99 ⟨2024, 1, 2⟩ true ⟨[], 0, []⟩).priceLog "MSFT" ⟨2024, 1, 2⟩
      = logPrice ([] : PriceLog) "MSFT" ⟨2024, 1, 2⟩ := by
  have h := claim_C3
    [⟨"1", "AAPL", "Apple", 10⟩, ⟨"2", "MSFT", "Microsoft", 5⟩]
    (fun s => if s = "AAPL" then some ⟨some 150, some 1⟩ else none)
    99 ⟨2024, 1, 2⟩ true ⟨[], 0, []⟩ (by simp) (Or.inl rfl)
    ⟨"1", "AAPL", "Apple", 10⟩ (by simp) "MSFT" (by simp)
  exact ⟨h.1, h.2.1, h.2.2.1 150 (by simp), h.2.2.2⟩

/-- C6: with nonempty holdings whose fetches all succeed, a forced
refresh makes `alreadyLoggedToday` true for the day, and after the
price-history `reset()` (spec §4.1, modelled as the empty log) it is
false again. -/
theorem claim_C6 (items : List Item) (outcome : String → Option Quote) (now : Int)
    (today : Date) (st : RefreshState) (hne : items ≠ [])
    (hsucc : ∀ it ∈ items, ∃ pv : ℚ, (outcome it.symbol).bind Quote.c = some pv) :
    alreadyLoggedToday (refreshQuotes items outcome now today true st).priceLog
        (items.map Item.symbol) today = true ∧
    alreadyLoggedToday resetLog (items.map Item.symbol) today = false := by
  constructor
  · rcases hX : items with _ | ⟨it0, rest⟩
    · exact absurd hX hne
    · subst hX
      obtain ⟨pv, hpv⟩ := hsucc it0 (List.mem_cons_self it0 rest)
      rw [refreshQuotes_run _ outcome now today true st (by simp) (Or.inl rfl)]
      have hmem : it0.symbol ∈ (it0 :: rest).map Item.symbol :=
        List.mem_map_of_mem _ (List.mem_cons_self _ _)
      have hlog : logPrice
          (logTodayFromQuotes (it0 :: rest)
            ((it0 :: rest).foldl (fun acc it => setKey acc it.symbol (outcome it.symbol)) [])
            today st.priceLog) it0.symbol today = some pv := by
        apply logToday_write _ today it0.symbol pv ?_ _ _
          (Or.inr ⟨it0, List.mem_cons_self _ _, rfl⟩)
        unfold priceOf
        rw [lookupA_buildQuotes _ outcome [] it0.symbol, if_pos hmem]
        simpa using hpv
      unfold alreadyLoggedToday
      refine List.any_eq_true.mpr ⟨it0.symbol, hmem, ?_⟩
      show (logPrice (logTodayFromQuotes (it0 :: rest)
        ((it0 :: rest).foldl (fun acc it => setKey acc it.symbol (outcome it.symbol)) [])
        today st.priceLog) it0.symbol today).isSome = true
      rw [hlog]
      rfl
  · simp [alreadyLoggedToday, resetLog, lookupA]

/-- Witness for C6: one holding whose fetch succeeds; after the forced
refresh the day is logged, after `reset()` it is not. -/
theorem claim_C6_witness :
    alreadyLoggedToday (refreshQuotes [⟨"1", "AAPL", "Apple", 10⟩]
        (fun _ => some ⟨some 150, none⟩) 5 ⟨2024, 1, 2⟩ true ⟨[], 0, []⟩).priceLog
        ["AAPL"] ⟨2024, 1, 2⟩ = true ∧
    alreadyLoggedToday resetLog ["AAPL"] ⟨2024, 1, 2⟩ = false :=
  claim_C6 [⟨"1", "AAPL", "Apple", 10⟩] (fun _ => some ⟨some 150, none⟩) 5 ⟨2024, 1, 2⟩
    ⟨[], 0, []⟩ (by simp) (fun it hit => ⟨150, rfl⟩)

/-! Well-formedness of the price log (C9). -/

theorem mem_setKey {α β : Type} [DecidableEq α] (l : List (α × β)) (k : α) (v : β) (e : α × β)
    (he : e ∈ setKey l k v) : e ∈ l ∨ e = (k, v) := by
  unfold setKey at he
  by_cases hany : (l.any fun p => decide (p.1 = k)) = true
  · rw [if_pos hany] at he
    rcases List.mem_map.mp he with ⟨p, hp, hpe⟩
    by_cases hpk : p.1 = k
    · right
      rw [← hpe, if_pos hpk]
    · left
      rw [← hpe, if_neg hpk]
      exact hp
  · rw [if_neg hany] at he
    rcases List.mem_append.mp he with h | h
    · exact Or.inl h
    · right
      simpa using h

theorem keys_setKey {α β : Type} [DecidableEq α] (l : List (α × β)) (k : α) (v : β) :
    (setKey l k v).map Prod.fst =
      if (l.any fun p => decide (p.1 = k)) = true then l.map Prod.fst
      else l.map Prod.fst ++ [k] := by
  unfold setKey
  by_cases hany : (l.any fun p => decide (p.1 = k)) = true
  · rw [if_pos hany, if_pos hany, List.map_map]
    apply List.map_congr_left
    intro p _
    simp only [Function.comp_apply]
    by_cases hpk : p.1 = k
    · rw [if_pos hpk]
      exact hpk.symm
    · rw [if_neg hpk]
  · rw [if_neg hany, if_neg hany, List.map_append]
    rfl

theorem keys_nodup_setKey {α β : Type} [DecidableEq α] (l : List (α × β)) (k : α) (v : β)
    (h : (l.map Prod.fst).Nodup) : ((setKey l k v).map Prod.fst).Nodup := by
  rw [keys_setKey]
  by_cases hany : (l.any fun p => decide (p.1 = k)) = true
  · rw [if_pos hany]
    exact h
  · rw [if_neg hany]
    have hk : k ∉ l.map Prod.fst := by
      intro hcon
      apply hany
      rcases List.mem_map.mp hcon with ⟨p, hp, hpk⟩
      exact List.any_eq_true.mpr ⟨p, hp, by simp [hpk]⟩
    refine List.nodup_append.mpr ⟨h, List.nodup_singleton k, ?_⟩
    intro a ha hcon
    rw [List.mem_singleton.mp hcon] at ha
    exact hk ha

theorem filter_key_setKey_length {α β : Type} [DecidableEq α] (l : List (α × β)) (k : α)
    (v : β) (h : (l.map Prod.fst).Nodup) :
    ((setKey l k v).filter (fun p => decide (p.1 = k))).length = 1 := by
  induction l with
  | nil => simp [setKey]
  | cons x l ih =>
    have hnd : (l.map Prod.fst).Nodup := (List.nodup_cons.mp (by simpa using h)).2
    have hx_not : x.1 ∉ l.map Prod.fst := (List.nodup_cons.mp (by simpa using h)).1
    by_cases hxk : x.1 = k
    · have hany : ((x :: l).any fun p => decide (p.1 = k)) = true := by simp [hxk]
      unfold setKey
      rw [if_pos hany]
      simp only [List.map_cons, if_pos hxk, List.filter_cons]
      have hnok : ∀ p ∈ l, ¬ p.1 = k := by
        intro p hp hpk
        apply hx_not
        rw [hxk, ← hpk]
        exact List.mem_map_of_mem Prod.fst hp
      have hrepl : l.map (fun p => if p.1 = k then (k, v) else p) = l := by
        conv_rhs => rw [← List.map_id l]
        apply List.map_congr_left
        intro p hp
        rw [if_neg (hnok p hp)]
        rfl
      rw [hrepl]
      have hfl : l.filter (fun p => decide (p.1 = k)) = [] := by
        rw [List.filter_eq_nil_iff]
        intro p hp
        simp only [decide_eq_true_eq]
        exact hnok p hp
      simp [hfl]
    · by_cases hany : (l.any fun p => decide (p.1 = k)) = true
      · have h2 : ((x :: l).any fun p => decide (p.1 = k)) = true := by
          simp only [List.any_cons, Bool.or_eq_true]
          exact Or.inr hany
        unfold setKey
        rw [if_pos h2]
        simp only [List.map_cons, if_neg hxk, List.filter_cons]
        have hxf : (decide (x.1 = k)) = false := by simp [hxk]
        rw [hxf]
        have := ih hnd
        unfold setKey at this
        rw [if_pos hany] at this
        simpa using this
      · have h2 : ((x :: l).any fun p => decide (p.1 = k)) = false := by
          simp only [List.any_cons, Bool.or_eq_false_iff]
          exact ⟨by simpa using hxk, by rwa [Bool.not_eq_true] at hany⟩
        unfold setKey
        rw [h2]
        simp only [Bool.false_eq_true, if_false, List.cons_append, List.filter_cons]
        have hxf : (decide (x.1 = k)) = false := by simp [hxk]
        rw [hxf]
        have := ih hnd
        unfold setKey at this
        rw [if_neg hany] at this
        simpa using this

theorem lookupA_mem {α β : Type} [DecidableEq α] :
    ∀ {l : List (α × β)} {a : α} {b : β}, lookupA l a = some b → (a, b) ∈ l := by
  intro l
  induction l with
  | nil => intro a b h; simp [lookupA] at h
  | cons x l ih =>
    intro a b h
    simp only [lookupA] at h
    by_cases hx : x.1 = a
    · rw [if_pos hx] at h
      injection h with h
      have hxe : x = (a, b) := by
        rw [← hx, ← h]
      rw [← hxe]
      exact List.mem_cons_self x l
    · rw [if_neg hx] at h
      exact List.mem_cons_of_mem _ (ih h)

theorem inner_nodup_of_WF (log : PriceLog) (hwf : LogWF log) (sym : String) :
    ((((lookupA log sym).getD []).map Prod.fst).Nodup) := by
  cases hl : lookupA log sym with
  | none => simp
  | some inner =>
    simp only [Option.getD_some]
    exact hwf.2 (sym, inner) (lookupA_mem hl)

theorem recordPrice_WF (log : PriceLog) (sym : String) (p : ℚ) (d : Date) (hwf : LogWF log) :
    LogWF (recordPrice log sym p d) := by
  unfold recordPrice
  constructor
  · exact keys_nodup_setKey log sym _ hwf.1
  · intro e he
    rcases mem_setKey _ _ _ _ he with h | h
    · exact hwf.2 e h
    · rw [h]
      exact keys_nodup_setKey _ d p (inner_nodup_of_WF log hwf sym)

theorem logTodayFromQuotes_WF (q : List (String × Option Quote)) (today : Date) :
    ∀ (items : List Item) (log : PriceLog), LogWF log →
      LogWF (logTodayFromQuotes items q today log) := by
  intro items
  induction items with
  | nil => intro log hwf; exact hwf
  | cons it items ih =>
    intro log hwf
    unfold logTodayFromQuotes
    simp only [List.foldl_cons]
    cases hp : priceOf q it.symbol with
    | none => exact ih log hwf
    | some pw =>
      exact ih (recordPrice log it.symbol pw today) (recordPrice_WF log it.symbol pw today hwf)

/-- C9: writing a price twice for the same (symbol, date) leaves exactly
one entry for that key, holding the second value (last-write-wins); the
at-most-one-value-per-key invariant is preserved by `recordPrice`, by the
batched `logTodayFromQuotes`, and trivially by `reset()`. -/
theorem claim_C9 (log : PriceLog) (sym : String) (p p2 : ℚ) (d : Date) (hwf : LogWF log) :
    (((lookupA (recordPrice (recordPrice log sym p d) sym p2 d) sym).getD []).filter
        (fun e => decide (e.1 = d))).length = 1 ∧
    logPrice (recordPrice (recordPrice log sym p d) sym p2 d) sym d = some p2 ∧
    LogWF (recordPrice (recordPrice log sym p d) sym p2 d) ∧
    (∀ (log' : PriceLog) (sym' : String) (p' : ℚ) (d' : Date), LogWF log' →
      LogWF (recordPrice log' sym' p' d')) ∧
    (∀ (items : List Item) (q : List (String × Option Quote)) (today : Date)
        (log' : PriceLog), LogWF log' → LogWF (logTodayFromQuotes items q today log')) ∧
    LogWF resetLog := by
  have hinner1 : lookupA (recordPrice log sym p d) sym
      = some (setKey ((lookupA log sym).getD []) d p) := by
    unfold recordPrice
    exact lookupA_setKey_self _ _ _
  refine ⟨?_, ?_, ?_, ?_, ?_, ?_⟩
  · show ((((lookupA (setKey (recordPrice log sym p d) sym
      (setKey ((lookupA (recordPrice log sym p d) sym).getD []) d p2)) sym).getD []).filter
        (fun e => decide (e.1 = d))).length = 1)
    rw [lookupA_setKey_self, hinner1]
    simp only [Option.getD_some]
    exact filter_key_setKey_length _ d p2
      (keys_nodup_setKey _ d p (inner_nodup_of_WF log hwf sym))
  · unfold logPrice
    show (lookupA ((lookupA (setKey (recordPrice log sym p d) sym
      (setKey ((lookupA (recordPrice log sym p d) sym).getD []) d p2)) sym).getD []) d
        = some p2)
    rw [lookupA_setKey_self]
    simp only [Option.getD_some]
    exact lookupA_setKey_self _ _ _
  · exact recordPrice_WF _ sym p2 d (recordPrice_WF log sym p d hwf)
  · exact fun log' sym' p' d' h => recordPrice_WF log' sym' p' d' h
  · exact fun items q today log' h => logTodayFromQuotes_WF q today items log' h
  · exact ⟨List.nodup_nil, by intro e he; cases he⟩

/-- Witness for C9 on a one-symbol log: recording 150 then 160 for the
same day leaves one entry holding 160, and the invariant holds of the
result. -/
theorem claim_C9_witness :
    (((lookupA (recordPrice (recordPrice [("AAPL", [(⟨2024, 1, 1⟩, 100)])]
          "AAPL" 150 ⟨2024, 1, 2⟩) "AAPL" 160 ⟨2024, 1, 2⟩) "AAPL").getD []).filter
        (fun e => decide (e.1 = (⟨2024, 1, 2⟩ : Date)))).length = 1 ∧
    logPrice (recordPrice (recordPrice [("AAPL", [(⟨2024, 1, 1⟩, 100)])]
        "AAPL" 150 ⟨2024, 1, 2⟩) "AAPL" 160 ⟨2024, 1, 2⟩) "AAPL" ⟨2024, 1, 2⟩ = some 160 := by
  have h := claim_C9 [("AAPL", [(⟨2024, 1, 1⟩, 100)])] "AAPL" 150 160 ⟨2024, 1, 2⟩
    (by constructor
        · simp
        · intro e he
          simp only [List.mem_singleton] at he
          rw [he]
          simp)
  exact ⟨h.1, h.2.1⟩

/-! Total-portfolio and normalized series (C7, C8). -/

theorem foldl_priceContrib (items : List Item) (f : String → Option ℚ) :
    ∀ init : ℚ, items.foldl (fun total it =>
        match f it.symbol with
        | none => total
        | some p => total + p * it.shares) init
      = init + (items.map (fun it => ((f it.symbol).map (· * it.shares)).getD 0)).sum := by
  induction items with
  | nil => intro init; simp
  | cons it items ih =>
    intro init
    simp only [List.foldl_cons, List.map_cons, List.sum_cons]
    cases hf : f it.symbol with
    | none =>
      rw [ih]
      simp
    | some p =>
      rw [ih]
      simp only [Option.map_some', Option.getD_some]
      ring

/-- C7: the total-portfolio series is built on the sorted union of the
distinct timestamps of the held symbols' filtered series, and at each
timestamp sums `price × shares` over exactly the holdings with a sample
at that timestamp (a missing symbol contributes zero, never a carried
price) — stated as equality with `totalSeriesSpec`; and with one 10-share
AAPL holding logged at 150 and 160, the series value at the second date's
timestamp is 1600. -/
theorem claim_C7 (items : List Item) (log : PriceLog) (range : RangePreset) (now : Int) :
    totalSeries items log range now = totalSeriesSpec items log range now ∧
    lookupA (totalSeries [⟨"1", "AAPL", "AAPL", 10⟩]
        [("AAPL", [(⟨2024, 1, 1⟩, 150), (⟨2024, 1, 10⟩, 160)])] .ALL 0)
      (tsOfDate ⟨2024, 1, 10⟩) = some 1600 := by
  constructor
  · unfold totalSeries totalSeriesSpec
    apply List.map_congr_left
    intro t _
    rw [Prod.mk.injEq]
    refine ⟨rfl, ?_⟩
    rw [foldl_priceContrib items (fun s => mapForSym log range now s t) 0]
    rw [zero_add]
  · simp [totalSeries, totalSeriesSpec, unionTimes, symSeries, toSeriesFromLog, filterByRange,
      mapForSym, tsOfDate, daysFromCivil, lookupA, List.mergeSort]
    norm_num

/-- C8: every entry of the normalized set comes from a holding whose
filtered series has at least two points and a nonzero first value, is
rescaled so its first point is exactly 100; every such holding appears
with its series mapped by `value / firstValue × 100`; and a symbol whose
series is too short or starts at zero is excluded from the normalized set
entirely. -/
theorem claim_C8 (items : List Item) (log : PriceLog) (range : RangePreset) (now : Int) :
    (∀ e ∈ normalizedSeries items log range now,
        2 ≤ e.2.length ∧ (e.2.headD (0, 0)).2 = 100) ∧
    (∀ it ∈ items,
        ¬ (symSeries log range now it.symbol).length < 2 →
        ((symSeries log range now it.symbol).headD (0, 0)).2 ≠ 0 →
        (it.symbol, (symSeries log range now it.symbol).map
            (fun p => (p.1, p.2 / ((symSeries log range now it.symbol).headD (0, 0)).2 * 100)))
          ∈ normalizedSeries items log range now) ∧
    (∀ sym : String,
        ((symSeries log range now sym).length < 2 ∨
          ((symSeries log range now sym).headD (0, 0)).2 = 0) →
        ∀ e ∈ normalizedSeries items log range now, e.1 ≠ sym) := by
  refine ⟨?_, ?_, ?_⟩
  · intro e he
    rcases List.mem_filterMap.mp he with ⟨it, hit, hfe⟩
    simp only [normalizedSeries] at hfe
    by_cases h1 : (symSeries log range now it.symbol).length < 2
    · rw [if_pos h1] at hfe
      cases hfe
    · rw [if_neg h1] at hfe
      by_cases h2 : ((symSeries log range now it.symbol).headD (0, 0)).2 = 0
      · rw [if_pos h2] at hfe
        cases hfe
      · rw [if_neg h2] at hfe
        injection hfe with hfe
        rw [← hfe]
        cases harr : symSeries log range now it.symbol with
        | nil =>
          rw [harr] at h1
          simp at h1
        | cons a rest =>
          constructor
          · rw [harr] at h1
            simp only [List.length_map, List.length_cons]
            simp only [List.length_cons] at h1
            omega
          · rw [harr] at h2
            simp only [List.headD_cons] at h2
            simp only [List.map_cons, List.headD_cons]
            rw [div_self h2, one_mul]
  · intro it hit h1 h2
    refine List.mem_filterMap.mpr ⟨it, hit, ?_⟩
    simp only [normalizedSeries]
    rw [if_neg h1, if_neg h2]
  · intro sym hbad e he hesym
    rcases List.mem_filterMap.mp he with ⟨it, hit, hfe⟩
    simp only [normalizedSeries] at hfe
    by_cases h1 : (symSeries log range now it.symbol).length < 2
    · rw [if_pos h1] at hfe
      cases hfe
    · rw [if_neg h1] at hfe
      by_cases h2 : ((symSeries log range now it.symbol).headD (0, 0)).2 = 0
      · rw [if_pos h2] at hfe
        cases hfe
      · rw [if_neg h2] at hfe
        injection hfe with hfe
        have hsym : it.symbol = sym := by rw [← hesym, ← hfe]
        rw [hsym] at h1 h2
        rcases hbad with hb | hb
        · exact h1 hb
        · exact h2 hb

/-- Witness for C8: the 10-share AAPL holding with two logged prices
(150 then 160) appears in the normalized set with its series rescaled by
`value / 150 × 100`. -/
theorem claim_C8_witness :
    ("AAPL", (symSeries [("AAPL", [(⟨2024, 1, 1⟩, 150), (⟨2024, 1, 10⟩, 160)])] .ALL 0
        "AAPL").map
      (fun p => (p.1, p.2 / ((symSeries [("AAPL", [(⟨2024, 1, 1⟩, 150), (⟨2024, 1, 10⟩, 160)])]
          .ALL 0 "AAPL").headD (0, 0)).2 * 100)))
      ∈ normalizedSeries [⟨"1", "AAPL", "AAPL", 10⟩]
          [("AAPL", [(⟨2024, 1, 1⟩, 150), (⟨2024, 1, 10⟩, 160)])] .ALL 0 :=
  (claim_C8 [⟨"1", "AAPL", "AAPL", 10⟩]
      [("AAPL", [(⟨2024, 1, 1⟩, 150), (⟨2024, 1, 10⟩, 160)])] .ALL 0).2.1
    ⟨"1", "AAPL", "AAPL", 10⟩ (by simp)
    (by simp [symSeries, toSeriesFromLog, filterByRange, lookupA, List.mergeSort, tsOfDate,
      daysFromCivil])
    (by
      simp [symSeries, toSeriesFromLog, filterByRange, lookupA, List.mergeSort, tsOfDate,
        daysFromCivil])

end App
